import Mathlib

/-!
Verification of the parmancer parser-combinator engine against its
specification.  The repository ships the combinator core (`parmancer/parser.py`
and `parmancer/text_display.py`) outside of the vendored sources; every
definition below that embeds one of those missing functions is modelled from
the specification text and marked `Modelled from the spec:` in its doc string.
Tests and examples from the repository guide the concrete inputs used in the
theorems.
-/

set_option maxRecDepth 4000

namespace Parmancer

/-- Modelled from the spec: `TextState` is an immutable cursor over an input
string plus an absolute index (section 3).  The text is represented by its
list of characters. -/
structure TextState where
  chars : List Char
  index : Nat
deriving DecidableEq, Repr

/-- Modelled from the spec: `start(text)` produces a state at index 0. -/
def TextState.start (text : String) : TextState :=
  { chars := text.data, index := 0 }

/-- Modelled from the spec: `at(index)` returns a new state over the same text
(the source method is named `at`, which Lean reserves). -/
def TextState.atIdx (s : TextState) (i : Nat) : TextState :=
  { chars := s.chars, index := i }

/-- Modelled from the spec: `remaining()` is the substring from the index. -/
def TextState.remaining (s : TextState) : List Char :=
  s.chars.drop s.index

/-- Modelled from the spec: `FailureInfo` is an index plus a message; failures
form equivalence classes keyed by `(index, message)` for deduplication. -/
structure FailureInfo where
  index : Nat
  message : String
deriving DecidableEq, Repr

/-- Untyped parse values, standing in for the dynamically typed Python values
produced by parsers: strings, lists (repetition), tuples (sequences and
records) and `None` (the default of `optional`). -/
inductive Val where
  | vstr (s : String)
  | vlist (xs : List Val)
  | vtup (xs : List Val)
  | vnone

/-- Modelled from the spec: `Result<T>` is a tagged union of `Success` (value
and resume state) and `Failure` (failure-point state plus competing failure
explanations), section 3. -/
inductive ResultV where
  | success (value : Val) (state : TextState)
  | failure (state : TextState) (failures : List FailureInfo)

/-- True exactly on `Success` results. -/
def ResultV.isSuccess : ResultV → Bool
  | .success _ _ => true
  | .failure _ _ => false

/-- Failure explanations carried by a result (empty for successes). -/
def ResultV.failuresOf : ResultV → List FailureInfo
  | .success _ _ => []
  | .failure _ fs => fs

/-- Modelled from the spec: `ParseError` carries the deduplicated failures
tuple from the deepest failure point reached (section 3). -/
structure ParseError where
  failures : List FailureInfo
deriving DecidableEq, Repr

/-- Maximum index reached among a list of failures (0 for the empty list). -/
def maxIndex : List FailureInfo → Nat
  | [] => 0
  | f :: fs => max f.index (maxIndex fs)

/-- Order-preserving deduplication of failures by `(index, message)` equality,
keeping the first occurrence; `seen` holds already-emitted entries. -/
def dedupFailures (seen : List FailureInfo) : List FailureInfo → List FailureInfo
  | [] => []
  | f :: fs =>
    if f ∈ seen then dedupFailures seen fs
    else f :: dedupFailures (f :: seen) fs

/-- Modelled from the spec: the farthest-failure policy (section 4.3) — keep
only failures whose index equals the maximum index reached, preserving ties in
discovery order, deduplicated by `(index, message)`. -/
def aggregate (fs : List FailureInfo) : List FailureInfo :=
  dedupFailures [] (fs.filter (fun f => f.index = maxIndex fs))

/-- Modelled from the spec: the parser combinator algebra (section 4.2).  One
deep-embedded type stands for the source classes `Parser`, `Sequence`,
`Choice`, `KeepOne` and `OneOf`; composite nodes carry the `is_grouped` flag
that suppresses associative flattening.  The stateful escape hatch (section
4.4) is a raw function on `TextState`, and also hosts derived loops such as
repetition. -/
inductive Parser where
  | stringP (lit : String)
  | anyCharP
  | gateP (name : String) (pred : Val → Bool) (p : Parser)
  | mapP (f : Val → Val) (p : Parser)
  | successP (v : Val)
  | sequenceP (grouped : Bool) (parsers : List Parser)
  | choiceP (grouped : Bool) (parsers : List Parser)
  | keepOneP (grouped : Bool) (left : List Parser) (keep : Parser) (right : List Parser)
  | lookAheadP (p : Parser)
  | oneOfP (parsers : List Parser)
  | statefulP (f : TextState → ResultV)

mutual

/-- Modelled from the spec: `parse_result(state)` — the one primitive every
parser variant implements (section 4.2).  Literal matchers consume exactly the
matched text; map transforms successes; sequences thread state and tuple the
values; choice tries alternatives from the same state and aggregates failures
by the farthest-failure policy; keep-one threads left, kept and right parsers
and keeps one value; look-ahead discards state advancement on success;
`one_of` runs every alternative from the same state and demands exactly one
success; stateful runs a raw state function. -/
def parse_result : Parser → TextState → ResultV
  | .stringP lit, s =>
    if (s.chars.drop s.index).take lit.data.length = lit.data then
      .success (.vstr lit) (s.atIdx (s.index + lit.data.length))
    else
      .failure s [⟨s.index, "expected " ++ lit⟩]
  | .anyCharP, s =>
    match (s.chars.drop s.index).head? with
    | some c => .success (.vstr (String.singleton c)) (s.atIdx (s.index + 1))
    | none => .failure s [⟨s.index, "any character"⟩]
  | .gateP name pred p, s =>
    match parse_result p s with
    | .success v t => if pred v then .success v t else .failure s [⟨s.index, name⟩]
    | .failure t fs => .failure t fs
  | .mapP f p, s =>
    match parse_result p s with
    | .success v t => .success (f v) t
    | .failure t fs => .failure t fs
  | .successP v, s => .success v s
  | .sequenceP _ ps, s => runSequence ps [] s
  | .choiceP _ ps, s => runChoice ps [] s
  | .keepOneP _ l k r, s =>
    match runSequence l [] s with
    | .failure t fs => .failure t fs
    | .success _ t =>
      match parse_result k t with
      | .failure u fs => .failure u fs
      | .success v u =>
        match runSequence r [] u with
        | .failure w fs => .failure w fs
        | .success _ w => .success v w
  | .lookAheadP p, s =>
    match parse_result p s with
    | .success v _ => .success v s
    | .failure t fs => .failure t fs
  | .oneOfP ps, s =>
    match (runAll ps s).filter ResultV.isSuccess with
    | [r] => r
    | [] =>
      let fs := (runAll ps s).foldr (fun r acc => r.failuresOf ++ acc) []
      .failure (s.atIdx (maxIndex fs)) (aggregate fs)
    | rs =>
      .failure s [⟨s.index, "Exactly one parser must succeed, got " ++ toString rs.length⟩]
  | .statefulP f, s => f s

/-- Runs a list of parsers against successively advancing state, accumulating
values (in reverse); the first failure short-circuits (section 4.2, Sequence). -/
def runSequence : List Parser → List Val → TextState → ResultV
  | [], acc, s => .success (.vtup acc.reverse) s
  | p :: ps, acc, s =>
    match parse_result p s with
    | .success v t => runSequence ps (v :: acc) t
    | .failure t fs => .failure t fs

/-- Tries alternatives left-to-right from the same starting state, returning
the first success; when all fail, the collected failures are aggregated by the
farthest-failure policy (sections 4.2 and 4.3). -/
def runChoice : List Parser → List FailureInfo → TextState → ResultV
  | [], acc, s => .failure (s.atIdx (maxIndex acc)) (aggregate acc)
  | p :: ps, acc, s =>
    match parse_result p s with
    | .success v t => .success v t
    | .failure _ fs => runChoice ps (acc ++ fs) s

/-- Runs every parser independently from the same starting state, collecting
all results (section 4.6, `one_of`). -/
def runAll : List Parser → TextState → List ResultV
  | [], _ => []
  | p :: ps, s => parse_result p s :: runAll ps s

end

/-- Modelled from the spec: the top-level `parse(text)` entry point (section
4.2) — run `parse_result` from `start(text)`; a `Failure` outcome raises
`ParseError` with its failures, and a `Success` that leaves input unconsumed
raises `ParseError` with an "expected end of input" failure at the current
index; otherwise the parsed value is returned. -/
def parse (p : Parser) (text : String) : Except ParseError Val :=
  match parse_result p (TextState.start text) with
  | .failure _ fs => .error ⟨fs⟩
  | .success v t =>
    if t.remaining = [] then .ok v
    else .error ⟨[⟨t.index, "expected end of input"⟩]⟩

/-- Modelled from the spec: `string(lit)` literal matcher. -/
def string (lit : String) : Parser := .stringP lit

/-- Modelled from the spec: `any_char` consumes a single arbitrary character. -/
def any_char : Parser := .anyCharP

/-- Modelled from the spec: `success(value)` consumes nothing and yields the
value. -/
def success (v : Val) : Parser := .successP v

/-- Modelled from the spec: `look_ahead(p)` runs `p` but discards its state
advancement on success (section 4.2). -/
def look_ahead (p : Parser) : Parser := .lookAheadP p

/-- Modelled from the spec: `set_name` attaches a display name and marks the
parser as grouped, which suppresses associative flattening through it
(section 4.2, Naming).  On a gate the name becomes its failure message. -/
def set_name (p : Parser) (n : String) : Parser :=
  match p with
  | .sequenceP _ ps => .sequenceP true ps
  | .choiceP _ ps => .choiceP true ps
  | .keepOneP _ l k r => .keepOneP true l k r
  | .gateP _ pred q => .gateP n pred q
  | q => q

/-- Children spliced by sequence composition: an unnamed `Sequence` exposes
its parsers, anything else (including a grouped sequence) stays whole. -/
def seqChildren : Parser → List Parser
  | .sequenceP false ps => ps
  | p => [p]

/-- Modelled from the spec: associative sequence composition (`&` / `+`) —
flattens into one flat `Sequence` unless an operand was named/grouped
(section 4.2, Sequence; section 9, operator-driven flattening). -/
def pAnd (a b : Parser) : Parser :=
  .sequenceP false (seqChildren a ++ seqChildren b)

/-- Modelled from the spec: `seq(...)` builds the flat `Sequence` of the given
parsers, producing the tuple of their values. -/
def seq (ps : List Parser) : Parser := .sequenceP false ps

/-- Children spliced by choice composition: an unnamed `Choice` exposes its
alternatives, anything else stays whole. -/
def orChildren : Parser → List Parser
  | .choiceP false ps => ps
  | p => [p]

/-- Modelled from the spec: alternation (`|`) — tries alternatives
left-to-right from the same state, flattening nested unnamed Choices
(section 4.2, Choice). -/
def pOr (a b : Parser) : Parser :=
  .choiceP false (orChildren a ++ orChildren b)

/-- Parsers spliced into a keep-one discard list: an unnamed `KeepOne` is
dissolved into its left, kept and right parsers in order. -/
def keepChildren : Parser → List Parser
  | .keepOneP false l k r => l ++ [k] ++ r
  | p => [p]

/-- Modelled from the spec: discard-left chaining (`>>`) — keeps the right
value, flattening repeated keep-one chains into one node (section 4.2,
Keep-one variants). -/
def pRshift (a b : Parser) : Parser :=
  match b with
  | .keepOneP false l k r => .keepOneP false (keepChildren a ++ l) k r
  | _ => .keepOneP false (keepChildren a) b []

/-- Modelled from the spec: discard-right chaining (`<<`) — keeps the left
value, flattening repeated keep-one chains into one node (section 4.2,
Keep-one variants). -/
def pLshift (a b : Parser) : Parser :=
  match a with
  | .keepOneP false l k r => .keepOneP false l k (r ++ keepChildren b)
  | _ => .keepOneP false [] a (keepChildren b)

/-- Modelled from the spec: `one_of(...)` construction — rejects fewer than
one parser with an error at construction time, otherwise builds the
exclusive-choice parser (section 4.6). -/
def one_of (ps : List Parser) : Except String Parser :=
  match ps with
  | [] => .error "one_of requires at least one parser"
  | _ => .ok (.oneOfP ps)

/-- Modelled from the spec: the repetition loop behind `many`/`times` (section
4.2, Repetition).  `acc` holds values collected so far (reversed); the loop
stops successfully at `max` repetitions without consuming a failing attempt; a
failing attempt before `min` propagates as the overall failure, and after
`min` it merely stops repetition at the last success state.  The fuel bounds
the iteration count; it never runs out when the element parser consumes at
least one character per success. -/
def runMany (p : Parser) (mn : Nat) (mx : Option Nat) :
    Nat → List Val → TextState → ResultV
  | 0, _, s => .failure s [⟨s.index, "no progress in repetition"⟩]
  | fuel + 1, acc, s =>
    if mx = some acc.length then .success (.vlist acc.reverse) s
    else
      match parse_result p s with
      | .success v t => runMany p mn mx fuel (v :: acc) t
      | .failure t fs =>
        if mn ≤ acc.length then .success (.vlist acc.reverse) s
        else .failure t fs

/-- Modelled from the spec: `many(min, max)` repetition, hosted on the
stateful escape hatch with fuel equal to the remaining input length plus one
(enough for any element parser that makes forward progress). -/
def many (p : Parser) (mn : Nat := 0) (mx : Option Nat := none) : Parser :=
  .statefulP (fun s => runMany p mn mx (s.chars.length - s.index + 1) [] s)

/-- Modelled from the spec: `times(n)` is `many(n, n)`. -/
def times (p : Parser) (n : Nat) : Parser := many p n (some n)

/-- Modelled from the spec: `optional(default)` — yields the parser's value on
success and the default (None when omitted) without consuming input when it
fails; implemented as alternation with `success(default)`. -/
def optional (p : Parser) (d : Val := .vnone) : Parser :=
  pOr p (success d)

/-- Character predicate on single-character values, used by gates such as
`letter` (`any_char.gate(lambda c: c.isalpha())`). -/
def charPred (q : Char → Bool) : Val → Bool
  | .vstr s =>
    match s.data with
    | [c] => q c
    | _ => false
  | _ => false

/-- Modelled from the spec: the `letter` parser —
`any_char.gate(lambda c: c.isalpha()).set_name("Letter")`. -/
def letter : Parser := .gateP "Letter" (charPred Char.isAlpha) any_char

/-- Modelled from the spec: `Result.expect()` — returns the success payload,
and on a `Failure` aborts the remainder of a stateful parser body immediately,
carrying that failure out (section 4.4; test_stateful_parser_early_return). -/
def ResultV.expect : ResultV → Except ResultV (Val × TextState)
  | .success v t => .ok (v, t)
  | r => .error r

/-- Modelled from the spec: the `stateful_parser` wrapper — the body either
returns a `Result` normally or is aborted by `expect()` on a failure, which
the wrapper surfaces as an ordinary recoverable parse failure (section 4.4). -/
def statefulParser (body : TextState → Except ResultV ResultV) : Parser :=
  .statefulP (fun s =>
    match body s with
    | .ok r => r
    | .error r => r)

/-- Modelled from the spec: a `RecordSpec` — an ordered mapping from field
name to an elementary parser, declared once and consumed by gathering
(section 3). -/
def RecordSpec : Type := List (String × Parser)

/-- Looks up a collected field value by name (fields of a record spec have
distinct names; a missing name yields `vnone` for totality). -/
def assocVal : List (String × Val) → String → Val
  | [], _ => .vnone
  | (n, v) :: rest, m => if n = m then v else assocVal rest m

/-- The record value constructed from collected field values, in declaration
order of the spec's fields. -/
def recordValue (fields : List (String × Parser)) (acc : List (String × Val)) : Val :=
  .vtup (fields.map (fun f => assocVal acc f.1))

/-- Modelled from the spec: one round of permutation gathering — attempt each
remaining field's parser in declaration order at the current state; the first
success removes its field from the working set; if none succeeds the round
reports every attempted field's failures (section 4.5). -/
def permRound : List (String × Parser) → TextState →
    Except (List FailureInfo) (String × Val × TextState × List (String × Parser))
  | [], _ => .error []
  | (n, p) :: rest, s =>
    match parse_result p s with
    | .success v t => .ok (n, v, t, rest)
    | .failure _ fs =>
      match permRound rest s with
      | .ok (m, v, t, rem) => .ok (m, v, t, (n, p) :: rem)
      | .error acc => .error (fs ++ acc)

/-- Modelled from the spec: the permutation-gathering loop — repeat rounds,
each removing exactly one matched field and restarting from the full remaining
set, until the working set is empty; a failed round fails overall with the
round's farthest failures aggregated (section 4.5).  The fuel equals the
number of fields, which is exactly the number of rounds needed. -/
def permLoop : Nat → List (String × Parser) → List (String × Val) → TextState →
    Except (TextState × List FailureInfo) (List (String × Val) × TextState)
  | _, [], acc, s => .ok (acc, s)
  | 0, _ :: _, _, s => .error (s, [⟨s.index, "no progress in permutation"⟩])
  | fuel + 1, fields, acc, s =>
    match permRound fields s with
    | .error fs => .error (s.atIdx (maxIndex fs), aggregate fs)
    | .ok (n, v, t, rem) => permLoop fuel rem ((n, v) :: acc) t

/-- Modelled from the spec: `gather_perm` — permutation gathering over a
record spec; fields may appear in the input in any order, and the resulting
record is always assembled in declaration order (section 4.5). -/
def gather_perm (fields : List (String × Parser)) : Parser :=
  .statefulP (fun s =>
    match permLoop fields.length fields [] s with
    | .ok (acc, t) => .success (recordValue fields acc) t
    | .error (t, fs) => .failure t fs)

/-- Pointer into a context window: the line within the returned selection and
the column within that line (section 3, ContextWindow). -/
structure Pointer where
  line : Nat
  column : Nat
deriving DecidableEq, Repr

/-- Result of `context_window`: the selected wrapped lines and the pointer
(section 3, ContextWindow). -/
structure ContextWindow where
  lines : List (List Char)
  pointer : Pointer
deriving DecidableEq, Repr

/-- Fixed-width chunking with explicit fuel (the text length), so that the
definition evaluates by kernel reduction. -/
def wrapAux (width : Nat) : Nat → List Char → List (List Char)
  | _, [] => []
  | 0, cs => [cs]
  | fuel + 1, cs => cs.take width :: wrapAux width fuel (cs.drop width)

/-- Modelled from the spec: split the text into fixed-width wrapped lines — a
line is exactly `width` characters, or fewer for the final partial chunk,
derived sequentially from the raw text and not split on natural newlines
(section 4.7). -/
def wrapLines (text : List Char) (width : Nat) : List (List Char) :=
  wrapAux width text.length text

/-- Modelled from the spec: which wrapped line, and which column within it,
contains the target index; an index at a wrap boundary belongs to the line
that starts there, and an index equal to the text length yields a column equal
to the last line's length (section 4.7). -/
def locate (len index width : Nat) : Nat × Nat :=
  if index = len ∧ len % width = 0 ∧ 0 < len then (len / width - 1, width)
  else (index / width, index % width)

/-- Modelled from the spec: `context_window(text, index, lines_of_context,
width)` — wrap the text into fixed-width lines, locate the line and column of
the index, select `lines_of_context` wrapped lines before and after that line
clamped to the available range, and return the selected lines unchanged with
a pointer relative to the selection (section 4.7). -/
def context_window (text : String) (index : Nat)
    (lines_of_context : Nat := 2) (width : Nat := 80) : ContextWindow :=
  let cs := text.data
  let chunks := wrapLines cs width
  let lc := locate cs.length index width
  let lo := lc.1 - lines_of_context
  let hi := min (lc.1 + lines_of_context) (chunks.length - 1)
  { lines := (chunks.drop lo).take (hi + 1 - lo)
    pointer := { line := lc.1 - lo, column := lc.2 } }

/-- All failure explanations produced by running each parser of a list at the
same state, concatenated in discovery order. -/
def allFailures (ps : List Parser) (s : TextState) : List FailureInfo :=
  (runAll ps s).foldr (fun r acc => r.failuresOf ++ acc) []

/-- The successful results among running each parser of a list at the same
state (used by `one_of`). -/
def successResults (ps : List Parser) (s : TextState) : List ResultV :=
  (runAll ps s).filter ResultV.isSuccess

/-- Concatenation of a pair of tuple values, the value-level meaning of
composing two sequences without flattening. -/
def tupleConcat : Val → Val
  | .vtup [.vtup a, .vtup b] => .vtup (a ++ b)
  | v => v

/-- Number of consecutive successful applications of a parser from a state,
bounded by the fuel. -/
def countReps (p : Parser) : Nat → TextState → Nat
  | 0, _ => 0
  | fuel + 1, s =>
    match parse_result p s with
    | .success _ t => countReps p fuel t + 1
    | .failure _ _ => 0

/-- Number of consecutive successful applications of a parser from a state
(the fuel mirrors the repetition loop's). -/
def consecutiveSuccesses (p : Parser) (s : TextState) : Nat :=
  countReps p (s.chars.length - s.index + 1) s

/-- A parser makes strict forward progress: every success keeps the text,
advances the index, and stays within the text (the spec's requirement on
element parsers of repetition, section 5). -/
def StrictProgress (p : Parser) : Prop :=
  ∀ s v t, parse_result p s = .success v t →
    t.chars = s.chars ∧ s.index < t.index ∧ t.index ≤ s.chars.length

/-- Parsers all of whose embedded stateful bodies never move a success state's
index backward; every parser built from the pure combinators belongs here, and
a stateful parser belongs exactly when its own body is non-regressing. -/
inductive StatefulMono : Parser → Prop where
  | stringP (lit : String) : StatefulMono (.stringP lit)
  | anyCharP : StatefulMono .anyCharP
  | gateP (n : String) (pred : Val → Bool) (p : Parser) :
      StatefulMono p → StatefulMono (.gateP n pred p)
  | mapP (f : Val → Val) (p : Parser) : StatefulMono p → StatefulMono (.mapP f p)
  | successP (v : Val) : StatefulMono (.successP v)
  | sequenceP (g : Bool) (ps : List Parser) :
      (∀ p ∈ ps, StatefulMono p) → StatefulMono (.sequenceP g ps)
  | choiceP (g : Bool) (ps : List Parser) :
      (∀ p ∈ ps, StatefulMono p) → StatefulMono (.choiceP g ps)
  | keepOneP (g : Bool) (l : List Parser) (k : Parser) (r : List Parser) :
      (∀ p ∈ l, StatefulMono p) → StatefulMono k → (∀ p ∈ r, StatefulMono p) →
      StatefulMono (.keepOneP g l k r)
  | lookAheadP (p : Parser) : StatefulMono p → StatefulMono (.lookAheadP p)
  | oneOfP (ps : List Parser) :
      (∀ p ∈ ps, StatefulMono p) → StatefulMono (.oneOfP ps)
  | statefulP (f : TextState → ResultV) :
      (∀ s v t, f s = .success v t → s.index ≤ t.index) → StatefulMono (.statefulP f)

/-- The stateful body used by `test_stateful_parser_early_return`: expect an
"x" and then a "y" at the same state, then continue with an arbitrary
remainder `k` (the test's remainder is an unreachable assertion). -/
def xyBody (k : Val × TextState → Val × TextState → Except ResultV ResultV)
    (s : TextState) : Except ResultV ResultV :=
  ((parse_result (string "x") s).expect).bind (fun a =>
    ((parse_result (string "y") s).expect).bind (fun b => k a b))

/-- The three-field record spec of the permutation-gathering property: three
fields whose parsers match the distinct literals a, b and c. -/
def permFields : List (String × Parser) :=
  [("a", string "a"), ("b", string "b"), ("c", string "c")]

section AggregationLemmas

theorem mem_dedupFailures {f : FailureInfo} :
    ∀ (l seen : List FailureInfo), f ∈ dedupFailures seen l ↔ f ∈ l ∧ f ∉ seen := by
  intro l
  induction l with
  | nil => intro seen; simp [dedupFailures]
  | cons g l ih =>
    intro seen
    by_cases hg : g ∈ seen
    · simp only [dedupFailures, if_pos hg, ih, List.mem_cons]
      constructor
      · rintro ⟨h1, h2⟩; exact ⟨Or.inr h1, h2⟩
      · rintro ⟨h1 | h1, h2⟩
        · exact absurd (h1 ▸ hg) h2
        · exact ⟨h1, h2⟩
    · rw [dedupFailures, if_neg hg]
      by_cases hfg : f = g
      · subst hfg
        simp [List.mem_cons, hg]
      · simp only [List.mem_cons, ih, hfg, false_or]

theorem dedupFailures_congr {seen seen2 : List FailureInfo}
    (h : ∀ f, f ∈ seen ↔ f ∈ seen2) :
    ∀ l, dedupFailures seen l = dedupFailures seen2 l := by
  intro l
  induction l generalizing seen seen2 with
  | nil => rfl
  | cons g l ih =>
    by_cases hg : g ∈ seen
    · rw [dedupFailures, dedupFailures, if_pos hg, if_pos ((h g).mp hg), ih h]
    · rw [dedupFailures, dedupFailures, if_neg hg, if_neg (fun hc => hg ((h g).mpr hc))]
      refine congrArg _ (ih ?_)
      intro f
      simp only [List.mem_cons]
      exact or_congr Iff.rfl (h f)

theorem dedupFailures_append (seen xs ys : List FailureInfo) :
    dedupFailures seen (xs ++ ys) =
      dedupFailures seen xs ++ dedupFailures (xs ++ seen) ys := by
  induction xs generalizing seen with
  | nil => simp [dedupFailures]
  | cons x xs ih =>
    by_cases hx : x ∈ seen
    · rw [List.cons_append, dedupFailures, if_pos hx, dedupFailures, if_pos hx, ih]
      refine congrArg _ (dedupFailures_congr ?_ ys)
      intro f
      simp only [List.mem_append, List.mem_cons]
      constructor
      · rintro (h | h)
        · exact Or.inl (Or.inr h)
        · exact Or.inr h
      · rintro ((rfl | h) | h)
        · exact Or.inr hx
        · exact Or.inl h
        · exact Or.inr h
    · rw [List.cons_append, dedupFailures, if_neg hx, dedupFailures, if_neg hx,
        ih (x :: seen), List.cons_append]
      refine congrArg _ (congrArg _ (dedupFailures_congr ?_ ys))
      intro f
      simp only [List.mem_append, List.mem_cons]
      tauto

theorem dedupFailures_dedupFailures {s2 seen : List FailureInfo}
    (h : ∀ f ∈ s2, f ∈ seen) :
    ∀ l, dedupFailures seen (dedupFailures s2 l) = dedupFailures seen l := by
  intro l
  induction l generalizing s2 seen with
  | nil => rfl
  | cons g l ih =>
    by_cases hg2 : g ∈ s2
    · rw [dedupFailures, if_pos hg2, ih h, dedupFailures, if_pos (h g hg2)]
    · by_cases hgs : g ∈ seen
      · rw [dedupFailures, if_neg hg2, dedupFailures, if_pos hgs,
          dedupFailures, if_pos hgs]
        refine ih ?_
        intro f hf
        rcases List.mem_cons.mp hf with rfl | hf
        · exact hgs
        · exact h f hf
      · rw [dedupFailures, if_neg hg2, dedupFailures, if_neg hgs,
          dedupFailures, if_neg hgs]
        refine congrArg _ (ih ?_)
        intro f hf
        rcases List.mem_cons.mp hf with rfl | hf
        · exact List.mem_cons_self _ _
        · exact List.mem_cons_of_mem _ (h f hf)

theorem nodup_dedupFailures : ∀ (l seen : List FailureInfo), (dedupFailures seen l).Nodup := by
  intro l
  induction l with
  | nil => intro seen; simp [dedupFailures]
  | cons g l ih =>
    intro seen
    by_cases hg : g ∈ seen
    · rw [dedupFailures, if_pos hg]; exact ih seen
    · rw [dedupFailures, if_neg hg]
      refine List.nodup_cons.mpr ⟨?_, ih _⟩
      intro hc
      exact ((mem_dedupFailures _ _).mp hc).2 (List.mem_cons_self _ _)

theorem maxIndex_append (xs ys : List FailureInfo) :
    maxIndex (xs ++ ys) = max (maxIndex xs) (maxIndex ys) := by
  induction xs with
  | nil => simp [maxIndex]
  | cons x xs ih => simp [maxIndex, ih, Nat.max_assoc]

theorem le_maxIndex_of_mem {f : FailureInfo} {l : List FailureInfo} (h : f ∈ l) :
    f.index ≤ maxIndex l := by
  induction l with
  | nil => cases h
  | cons g l ih =>
    rcases List.mem_cons.mp h with rfl | h
    · exact Nat.le_max_left _ _
    · exact Nat.le_trans (ih h) (Nat.le_max_right _ _)

theorem maxIndex_le {l : List FailureInfo} {n : Nat} (h : ∀ g ∈ l, g.index ≤ n) :
    maxIndex l ≤ n := by
  induction l with
  | nil => exact Nat.zero_le n
  | cons g l ih =>
    exact Nat.max_le.mpr ⟨h g (List.mem_cons_self _ _),
      ih (fun f hf => h f (List.mem_cons_of_mem _ hf))⟩

theorem exists_maxIndex_mem {l : List FailureInfo} (h : l ≠ []) :
    ∃ f ∈ l, f.index = maxIndex l := by
  induction l with
  | nil => exact absurd rfl h
  | cons g l ih =>
    rcases eq_or_ne l [] with rfl | hl
    · exact ⟨g, List.mem_cons_self _ _, by simp [maxIndex]⟩
    · obtain ⟨f, hf, hfi⟩ := ih hl
      rcases Nat.le_total (maxIndex l) g.index with hc | hc
      · exact ⟨g, List.mem_cons_self _ _, by simp [maxIndex, Nat.max_eq_left hc]⟩
      · exact ⟨f, List.mem_cons_of_mem _ hf, by simp [maxIndex, hfi, Nat.max_eq_right hc]⟩

theorem mem_aggregate {f : FailureInfo} {fs : List FailureInfo} :
    f ∈ aggregate fs ↔ f ∈ fs ∧ f.index = maxIndex fs := by
  rw [aggregate, mem_dedupFailures]
  simp [List.mem_filter]

theorem maxIndex_aggregate (fs : List FailureInfo) :
    maxIndex (aggregate fs) = maxIndex fs := by
  rcases eq_or_ne fs [] with rfl | h
  · rfl
  · obtain ⟨f, hf, hfi⟩ := exists_maxIndex_mem h
    refine Nat.le_antisymm ?_ ?_
    · exact maxIndex_le (fun g hg => (mem_aggregate.mp hg).2.le)
    · exact hfi ▸ le_maxIndex_of_mem (mem_aggregate.mpr ⟨hf, hfi⟩)

theorem aggregate_filter_max (X : List FailureInfo) {m : Nat} (h : maxIndex X = m) :
    aggregate X = dedupFailures [] (X.filter (fun f => f.index = m)) := by
  rw [aggregate]
  simp only [h]

theorem dedupFailures_aggregate (X : List FailureInfo) :
    dedupFailures [] (aggregate X) = aggregate X := by
  rw [aggregate]
  exact dedupFailures_dedupFailures (by simp) _

theorem aggregate_append_aggregate (A B : List FailureInfo) :
    aggregate (aggregate A ++ aggregate B) = aggregate (A ++ B) := by
  have hm : maxIndex (aggregate A ++ aggregate B) = maxIndex (A ++ B) := by
    rw [maxIndex_append, maxIndex_append, maxIndex_aggregate, maxIndex_aggregate]
  rw [aggregate_filter_max _ hm, aggregate_filter_max (A ++ B) rfl,
    List.filter_append, List.filter_append]
  rcases Nat.lt_trichotomy (maxIndex A) (maxIndex B) with h | h | h
  · have hMB : maxIndex (A ++ B) = maxIndex B := by
      rw [maxIndex_append]; exact Nat.max_eq_right h.le
    have h1 : (aggregate A).filter (fun f => f.index = maxIndex (A ++ B)) = [] := by
      refine List.filter_eq_nil_iff.mpr (fun f hf => ?_)
      have := (mem_aggregate.mp hf).2
      simp only [decide_eq_true_eq]
      omega
    have h2 : A.filter (fun f => f.index = maxIndex (A ++ B)) = [] := by
      refine List.filter_eq_nil_iff.mpr (fun f hf => ?_)
      have := le_maxIndex_of_mem hf
      simp only [decide_eq_true_eq]
      omega
    have h3 : (aggregate B).filter (fun f => f.index = maxIndex (A ++ B)) = aggregate B := by
      refine List.filter_eq_self.mpr (fun f hf => ?_)
      have := (mem_aggregate.mp hf).2
      simp only [decide_eq_true_eq]
      omega
    have h4 : B.filter (fun f => f.index = maxIndex (A ++ B)) =
        B.filter (fun f => f.index = maxIndex B) := by simp only [hMB]
    rw [h1, h2, h3, h4, List.nil_append, List.nil_append,
      aggregate_filter_max B rfl]
    exact dedupFailures_dedupFailures (by simp) _
  · have hMA : maxIndex (A ++ B) = maxIndex A := by
      rw [maxIndex_append]; omega
    have hfA : (aggregate A).filter (fun f => f.index = maxIndex (A ++ B)) = aggregate A := by
      refine List.filter_eq_self.mpr (fun f hf => ?_)
      have := (mem_aggregate.mp hf).2
      simp only [decide_eq_true_eq]
      omega
    have hfB : (aggregate B).filter (fun f => f.index = maxIndex (A ++ B)) = aggregate B := by
      refine List.filter_eq_self.mpr (fun f hf => ?_)
      have := (mem_aggregate.mp hf).2
      simp only [decide_eq_true_eq]
      omega
    have hA : A.filter (fun f => f.index = maxIndex (A ++ B)) =
        A.filter (fun f => f.index = maxIndex A) := by simp only [hMA]
    have hB : B.filter (fun f => f.index = maxIndex (A ++ B)) =
        B.filter (fun f => f.index = maxIndex B) := by simp only [hMA, h]
    rw [hfA, hfB, hA, hB, dedupFailures_append, dedupFailures_append,
      dedupFailures_aggregate]
    refine congrArg _ ?_
    rw [aggregate_filter_max B rfl]
    rw [dedupFailures_dedupFailures (by simp)
      (B.filter (fun f => f.index = maxIndex B))]
    exact dedupFailures_congr
      (fun f => by
        rw [aggregate_filter_max A rfl]
        simp [mem_dedupFailures])
      (B.filter (fun f => f.index = maxIndex B))
  · have hMA : maxIndex (A ++ B) = maxIndex A := by
      rw [maxIndex_append]; exact Nat.max_eq_left h.le
    have h1 : (aggregate B).filter (fun f => f.index = maxIndex (A ++ B)) = [] := by
      refine List.filter_eq_nil_iff.mpr (fun f hf => ?_)
      have := (mem_aggregate.mp hf).2
      simp only [decide_eq_true_eq]
      omega
    have h2 : B.filter (fun f => f.index = maxIndex (A ++ B)) = [] := by
      refine List.filter_eq_nil_iff.mpr (fun f hf => ?_)
      have := le_maxIndex_of_mem hf
      simp only [decide_eq_true_eq]
      omega
    have h3 : (aggregate A).filter (fun f => f.index = maxIndex (A ++ B)) = aggregate A := by
      refine List.filter_eq_self.mpr (fun f hf => ?_)
      have := (mem_aggregate.mp hf).2
      simp only [decide_eq_true_eq]
      omega
    have h4 : A.filter (fun f => f.index = maxIndex (A ++ B)) =
        A.filter (fun f => f.index = maxIndex A) := by simp only [hMA]
    rw [h1, h2, h3, h4, List.append_nil, List.append_nil,
      aggregate_filter_max A rfl]
    exact dedupFailures_dedupFailures (by simp) _

end AggregationLemmas

/-- List of values held by a tuple value (empty for non-tuples). -/
def tupList : Val → List Val
  | .vtup l => l
  | _ => []

section RunLemmas

theorem runAll_eq_map (ps : List Parser) (s : TextState) :
    runAll ps s = ps.map (fun p => parse_result p s) := by
  induction ps with
  | nil => rfl
  | cons p ps ih => rw [runAll, List.map_cons, ih]

theorem allFailures_cons (p : Parser) (ps : List Parser) (s : TextState) :
    allFailures (p :: ps) s = (parse_result p s).failuresOf ++ allFailures ps s := rfl

theorem allFailures_append (xs ys : List Parser) (s : TextState) :
    allFailures (xs ++ ys) s = allFailures xs s ++ allFailures ys s := by
  induction xs with
  | nil => rfl
  | cons p xs ih =>
    rw [List.cons_append, allFailures_cons, allFailures_cons, ih, List.append_assoc]

theorem runChoice_all_fail :
    ∀ (l qs : List Parser) (acc : List FailureInfo) (s : TextState),
      (∀ p ∈ l, (parse_result p s).isSuccess = false) →
      runChoice (l ++ qs) acc s = runChoice qs (acc ++ allFailures l s) s := by
  intro l
  induction l with
  | nil => intro qs acc s _; rw [List.nil_append, allFailures, runAll]; simp
  | cons p l ih =>
    intro qs acc s h
    rcases hp : parse_result p s with ⟨v, t⟩ | ⟨t, fs⟩
    · have := h p (List.mem_cons_self _ _)
      rw [hp] at this
      exact absurd this (by simp [ResultV.isSuccess])
    · simp only [List.cons_append, runChoice, hp, List.append_eq]
      rw [ih qs (acc ++ fs) s (fun q hq => h q (List.mem_cons_of_mem _ hq))]
      rw [allFailures_cons, hp]
      simp only [ResultV.failuresOf, List.append_assoc]

theorem runChoice_success_stable :
    ∀ (l : List Parser) (acc acc2 : List FailureInfo) (s : TextState) (v : Val)
      (t : TextState) (qs : List Parser),
      runChoice l acc s = .success v t → runChoice (l ++ qs) acc2 s = .success v t := by
  intro l
  induction l with
  | nil => intro acc acc2 s v t qs h; exact absurd h (by simp [runChoice])
  | cons p l ih =>
    intro acc acc2 s v t qs h
    rcases hp : parse_result p s with ⟨v1, t1⟩ | ⟨t1, fs⟩
    · simp only [runChoice, hp] at h
      simp only [List.cons_append, runChoice, hp, List.append_eq]
      exact h
    · simp only [runChoice, hp] at h
      simp only [List.cons_append, runChoice, hp, List.append_eq]
      exact ih _ _ _ _ _ _ h

theorem runChoice_fail_forall :
    ∀ (l : List Parser) (acc : List FailureInfo) (s : TextState),
      (runChoice l acc s).isSuccess = false →
      ∀ p ∈ l, (parse_result p s).isSuccess = false := by
  intro l
  induction l with
  | nil => intro acc s _ p hp; cases hp
  | cons q l ih =>
    intro acc s h p hp
    rcases hq : parse_result q s with ⟨v, t⟩ | ⟨t, fs⟩
    · simp only [runChoice, hq] at h
      exact absurd h (by simp [ResultV.isSuccess])
    · rcases List.mem_cons.mp hp with rfl | hp
      · rw [hq]; rfl
      · simp only [runChoice, hq] at h
        exact ih _ _ h p hp

theorem runChoice_success_mem :
    ∀ (l : List Parser) (acc : List FailureInfo) (s : TextState) (v : Val) (t : TextState),
      runChoice l acc s = .success v t → ∃ p ∈ l, parse_result p s = .success v t := by
  intro l
  induction l with
  | nil => intro acc s v t h; exact absurd h (by simp [runChoice])
  | cons p l ih =>
    intro acc s v t h
    rcases hp : parse_result p s with ⟨v1, t1⟩ | ⟨t1, fs⟩
    · simp only [runChoice, hp, ResultV.success.injEq] at h
      obtain ⟨rfl, rfl⟩ := h
      exact ⟨p, List.mem_cons_self _ _, hp⟩
    · simp only [runChoice, hp] at h
      obtain ⟨q, hq, hqs⟩ := ih _ _ _ _ h
      exact ⟨q, List.mem_cons_of_mem _ hq, hqs⟩

theorem choiceP_all_fail (g : Bool) (ps : List Parser) (s : TextState)
    (h : ∀ p ∈ ps, (parse_result p s).isSuccess = false) :
    parse_result (.choiceP g ps) s =
      .failure (s.atIdx (maxIndex (allFailures ps s))) (aggregate (allFailures ps s)) := by
  have h2 := runChoice_all_fail ps [] [] s h
  rw [List.append_nil] at h2
  simp only [parse_result]
  rw [h2]
  simp only [runChoice, List.nil_append]

theorem runSequence_shape :
    ∀ (ps : List Parser) (acc : List Val) (s : TextState) (v : Val) (t : TextState),
      runSequence ps acc s = .success v t → ∃ l, v = .vtup l := by
  intro ps
  induction ps with
  | nil =>
    intro acc s v t h
    rw [runSequence] at h
    exact ⟨acc.reverse, by injection h with h1 _; exact h1.symm⟩
  | cons p ps ih =>
    intro acc s v t h
    rcases hp : parse_result p s with ⟨v1, t1⟩ | ⟨t1, fs⟩
    · simp only [runSequence, hp] at h
      exact ih _ _ _ _ h
    · simp only [runSequence, hp] at h
      cases h

theorem runSequence_accShift :
    ∀ (ps : List Parser) (acc : List Val) (s : TextState),
      runSequence ps acc s =
        match runSequence ps [] s with
        | .success v t => .success (.vtup (acc.reverse ++ tupList v)) t
        | .failure u fs => .failure u fs := by
  intro ps
  induction ps with
  | nil =>
    intro acc s
    rw [runSequence, runSequence]
    simp [tupList]
  | cons p ps ih =>
    intro acc s
    rcases hp : parse_result p s with ⟨v1, t1⟩ | ⟨t1, fs⟩
    · simp only [runSequence, hp]
      rw [ih (v1 :: acc) t1, ih [v1] t1]
      rcases hq : runSequence ps [] t1 with ⟨v2, t2⟩ | ⟨t2, fs2⟩
      · obtain ⟨l, rfl⟩ := runSequence_shape _ _ _ _ _ hq
        simp [tupList, List.append_assoc]
      · rfl
    · simp only [runSequence, hp]

theorem runSequence_append :
    ∀ (xs ys : List Parser) (acc : List Val) (s : TextState),
      runSequence (xs ++ ys) acc s =
        match runSequence xs acc s with
        | .success v t => runSequence ys (tupList v).reverse t
        | .failure u fs => .failure u fs := by
  intro xs
  induction xs with
  | nil =>
    intro ys acc s
    rw [List.nil_append, runSequence]
    simp [tupList]
  | cons p xs ih =>
    intro ys acc s
    rcases hp : parse_result p s with ⟨v1, t1⟩ | ⟨t1, fs⟩
    · simp only [List.cons_append, runSequence, hp, List.append_eq]
      exact ih ys (v1 :: acc) t1
    · simp only [List.cons_append, runSequence, hp, List.append_eq]

end RunLemmas

section MonotonicityLemmas

theorem mem_runAll {r : ResultV} {ps : List Parser} {s : TextState} :
    r ∈ runAll ps s ↔ ∃ p ∈ ps, parse_result p s = r := by
  rw [runAll_eq_map]
  constructor
  · intro h
    obtain ⟨p, hp, he⟩ := List.mem_map.mp h
    exact ⟨p, hp, he⟩
  · rintro ⟨p, hp, he⟩
    exact List.mem_map.mpr ⟨p, hp, he⟩

theorem runSequence_mono :
    ∀ (ps : List Parser),
      (∀ q ∈ ps, ∀ s v t, parse_result q s = .success v t → s.index ≤ t.index) →
      ∀ (acc : List Val) (s : TextState) (v : Val) (t : TextState),
        runSequence ps acc s = .success v t → s.index ≤ t.index := by
  intro ps
  induction ps with
  | nil =>
    intro _ acc s v t h
    simp only [runSequence, ResultV.success.injEq] at h
    exact h.2 ▸ Nat.le_refl _
  | cons p ps ih =>
    intro hm acc s v t h
    rcases hp : parse_result p s with ⟨v1, t1⟩ | ⟨t1, fs⟩
    · simp only [runSequence, hp] at h
      exact Nat.le_trans (hm p (List.mem_cons_self _ _) s v1 t1 hp)
        (ih (fun q hq => hm q (List.mem_cons_of_mem _ hq)) _ _ _ _ h)
    · simp only [runSequence, hp] at h
      cases h

theorem mono_of_statefulMono {p : Parser} (h : StatefulMono p) :
    ∀ (s : TextState) (v : Val) (t : TextState),
      parse_result p s = .success v t → s.index ≤ t.index := by
  induction h with
  | stringP lit =>
    intro s v t hs
    simp only [parse_result] at hs
    split at hs
    · injection hs with h1 h2
      subst h2
      exact Nat.le_add_right _ _
    · cases hs
  | anyCharP =>
    intro s v t hs
    simp only [parse_result] at hs
    rcases hd : (s.chars.drop s.index).head? with _ | c
    · simp only [hd] at hs; cases hs
    · simp only [hd] at hs
      injection hs with h1 h2
      subst h2
      exact Nat.le_add_right _ _
  | gateP n pred q hq ih =>
    intro s v t hs
    simp only [parse_result] at hs
    rcases hr : parse_result q s with ⟨v1, t1⟩ | ⟨t1, fs⟩
    · simp only [hr] at hs
      split at hs
      · injection hs with h1 h2
        subst h2
        exact ih s v1 t1 hr
      · cases hs
    · simp only [hr] at hs; cases hs
  | mapP f q hq ih =>
    intro s v t hs
    simp only [parse_result] at hs
    rcases hr : parse_result q s with ⟨v1, t1⟩ | ⟨t1, fs⟩
    · simp only [hr] at hs
      injection hs with h1 h2
      subst h2
      exact ih s v1 t1 hr
    · simp only [hr] at hs; cases hs
  | successP v =>
    intro s v1 t hs
    simp only [parse_result, ResultV.success.injEq] at hs
    exact hs.2 ▸ Nat.le_refl _
  | sequenceP g ps hmem ih =>
    intro s v t hs
    simp only [parse_result] at hs
    exact runSequence_mono ps ih [] s v t hs
  | choiceP g ps hmem ih =>
    intro s v t hs
    simp only [parse_result] at hs
    obtain ⟨q, hq, hqs⟩ := runChoice_success_mem ps [] s v t hs
    exact ih q hq s v t hqs
  | keepOneP g l k r hl hk hr ihl ihk ihr =>
    intro s v t hs
    simp only [parse_result] at hs
    rcases h1 : runSequence l [] s with ⟨v1, t1⟩ | ⟨t1, fs⟩
    · simp only [h1] at hs
      rcases h2 : parse_result k t1 with ⟨v2, t2⟩ | ⟨t2, fs⟩
      · simp only [h2] at hs
        rcases h3 : runSequence r [] t2 with ⟨v3, t3⟩ | ⟨t3, fs⟩
        · simp only [h3] at hs
          injection hs with e1 e2
          subst e2
          exact Nat.le_trans (runSequence_mono l ihl [] s v1 t1 h1)
            (Nat.le_trans (ihk t1 v2 t2 h2) (runSequence_mono r ihr [] t2 v3 _ h3))
        · simp only [h3] at hs; cases hs
      · simp only [h2] at hs; cases hs
    · simp only [h1] at hs; cases hs
  | lookAheadP q hq ih =>
    intro s v t hs
    simp only [parse_result] at hs
    rcases hr : parse_result q s with ⟨v1, t1⟩ | ⟨t1, fs⟩
    · simp only [hr] at hs
      injection hs with h1 h2
      subst h2
      exact Nat.le_refl _
    · simp only [hr] at hs; cases hs
  | oneOfP ps hmem ih =>
    intro s v t hs
    simp only [parse_result] at hs
    rcases hfil : (runAll ps s).filter ResultV.isSuccess with _ | ⟨r, rs⟩
    · simp only [hfil] at hs; cases hs
    · rcases rs with _ | ⟨r2, rs⟩
      · simp only [hfil] at hs
        subst hs
        have hr : ResultV.success v t ∈ (runAll ps s).filter ResultV.isSuccess := by
          rw [hfil]; exact List.mem_cons_self _ _
        obtain ⟨q, hq, hqs⟩ := mem_runAll.mp (List.mem_of_mem_filter hr)
        exact ih q hq s v t hqs
      · simp only [hfil] at hs; cases hs
  | statefulP f hf =>
    intro s v t hs
    exact hf s v t hs

theorem runMany_mono (p : Parser) (mn : Nat) (mx : Option Nat)
    (hp : ∀ s v t, parse_result p s = .success v t → s.index ≤ t.index) :
    ∀ (fuel : Nat) (acc : List Val) (s : TextState) (v : Val) (t : TextState),
      runMany p mn mx fuel acc s = .success v t → s.index ≤ t.index := by
  intro fuel
  induction fuel with
  | zero =>
    intro acc s v t h
    simp only [runMany] at h
    cases h
  | succ fuel ih =>
    intro acc s v t h
    simp only [runMany] at h
    split at h
    · injection h with h1 h2
      subst h2
      exact Nat.le_refl _
    · rcases hq : parse_result p s with ⟨v1, t1⟩ | ⟨t1, fs⟩
      · simp only [hq] at h
        exact Nat.le_trans (hp s v1 t1 hq) (ih _ _ _ _ h)
      · simp only [hq] at h
        split at h
        · injection h with h1 h2
          subst h2
          exact Nat.le_refl _
        · cases h

theorem statefulMono_many (p : Parser) (mn : Nat) (mx : Option Nat)
    (hp : ∀ s v t, parse_result p s = .success v t → s.index ≤ t.index) :
    StatefulMono (many p mn mx) := by
  unfold many
  refine StatefulMono.statefulP _ ?_
  intro s v t h
  exact runMany_mono p mn mx hp _ _ _ _ _ h

end MonotonicityLemmas

section RepetitionLemmas

theorem strictProgress_letter : StrictProgress letter := by
  intro s v t h
  simp only [letter, any_char, parse_result] at h
  rcases hd : (s.chars.drop s.index).head? with _ | c
  · simp only [hd] at h; cases h
  · simp only [hd] at h
    have hne : s.chars.drop s.index ≠ [] := by
      intro hc; rw [hc] at hd; cases hd
    have hlen : 0 < s.chars.length - s.index := by
      have := List.length_pos.mpr hne
      rwa [List.length_drop] at this
    split at h
    · injection h with h1 h2
      subst h2
      exact ⟨rfl, Nat.lt_succ_self _, by simp [TextState.atIdx]; omega⟩
    · cases h

theorem countReps_stable (p : Parser) (hp : StrictProgress p) :
    ∀ (fuel fuel2 : Nat) (s : TextState),
      s.chars.length - s.index + 1 ≤ fuel → s.chars.length - s.index + 1 ≤ fuel2 →
      countReps p fuel s = countReps p fuel2 s := by
  intro fuel
  induction fuel with
  | zero => intro fuel2 s h _; omega
  | succ fuel ih =>
    intro fuel2 s h h2
    cases fuel2 with
    | zero => omega
    | succ fuel2 =>
      simp only [countReps]
      rcases hq : parse_result p s with ⟨v, t⟩ | ⟨t, fs⟩
      · obtain ⟨hc, hlt, hle⟩ := hp s v t hq
        have hinv : t.chars.length - t.index + 1 ≤ fuel := by
          rw [hc]; omega
        have hinv2 : t.chars.length - t.index + 1 ≤ fuel2 := by
          rw [hc]; omega
        simp only [hq]
        rw [ih fuel2 t hinv hinv2]
      · simp only [hq]

theorem runMany_success_iff (p : Parser) (hp : StrictProgress p) (mn m : Nat)
    (hb : mn ≤ m) :
    ∀ (fuel : Nat) (acc : List Val) (s : TextState),
      s.chars.length - s.index + 1 ≤ fuel →
      ((runMany p mn (some m) fuel acc s).isSuccess = true ↔
        mn ≤ acc.length + countReps p fuel s) := by
  intro fuel
  induction fuel with
  | zero => intro acc s h; omega
  | succ fuel ih =>
    intro acc s h
    simp only [runMany]
    split
    · rename_i hcond
      simp only [Option.some.injEq] at hcond
      simp only [ResultV.isSuccess, eq_self_iff_true, true_iff]
      omega
    · rcases hq : parse_result p s with ⟨v, t⟩ | ⟨t, fs⟩
      · obtain ⟨hc, hlt, hle⟩ := hp s v t hq
        have hinv : t.chars.length - t.index + 1 ≤ fuel := by
          rw [hc]; omega
        simp only [hq, countReps]
        rw [ih (v :: acc) t hinv]
        simp only [List.length_cons]
        omega
      · simp only [hq, countReps]
        split
        · simp only [ResultV.isSuccess, eq_self_iff_true, true_iff]
          omega
        · simp only [ResultV.isSuccess, Bool.false_eq_true, false_iff]
          omega

end RepetitionLemmas

section ChoiceSpliceLemmas

theorem orChildren_cases (p : Parser) :
    p = .choiceP false (orChildren p) ∨ orChildren p = [p] := by
  cases p with
  | choiceP g ps => cases g with
    | false => exact Or.inl rfl
    | true => exact Or.inr rfl
  | _ => exact Or.inr rfl

theorem runChoice_orChildren_success (p : Parser) (qs : List Parser)
    (acc : List FailureInfo) (s : TextState) (v : Val) (t : TextState)
    (h : parse_result p s = .success v t) :
    runChoice (orChildren p ++ qs) acc s = .success v t := by
  rcases orChildren_cases p with hc | hc
  · rw [hc] at h
    simp only [parse_result] at h
    exact runChoice_success_stable _ [] acc s v t qs h
  · rw [hc]
    simp only [List.cons_append, List.nil_append, runChoice, h]

theorem runChoice_orChildren_fail (p : Parser) (qs : List Parser)
    (acc : List FailureInfo) (s : TextState)
    (h : (parse_result p s).isSuccess = false) :
    runChoice (orChildren p ++ qs) acc s =
      runChoice qs (acc ++ allFailures (orChildren p) s) s := by
  refine runChoice_all_fail (orChildren p) qs acc s ?_
  rcases orChildren_cases p with hc | hc
  · intro q hq
    rw [hc] at h
    simp only [parse_result] at h
    exact runChoice_fail_forall _ [] s h q hq
  · intro q hq
    rw [hc] at hq
    rcases List.mem_singleton.mp hq with rfl
    exact h

end ChoiceSpliceLemmas

/-- C2: for every parser and text, `parse` runs `parse_result` from the
starting state at index 0 and raises ParseError exactly when the outcome is a
Failure, or when it is a Success that leaves input unconsumed (then with an
"expected end of input" failure at the current index); otherwise it returns
the parsed value.  In particular `letter.times(3).parse("xyzw")` raises even
though the first three letters match. -/
theorem c2_parse_end_of_input :
    (∀ text : String,
      (TextState.start text).index = 0 ∧ (TextState.start text).chars = text.data) ∧
    (∀ (p : Parser) (text : String) (st : TextState) (fs : List FailureInfo),
      parse_result p (TextState.start text) = .failure st fs →
      parse p text = .error ⟨fs⟩) ∧
    (∀ (p : Parser) (text : String) (v : Val) (t : TextState),
      parse_result p (TextState.start text) = .success v t →
      (t.remaining = [] → parse p text = .ok v) ∧
      (t.remaining ≠ [] →
        parse p text = .error ⟨[⟨t.index, "expected end of input"⟩]⟩)) ∧
    parse (times letter 3) "xyzw" = .error ⟨[⟨3, "expected end of input"⟩]⟩ := by
  refine ⟨fun text => ⟨rfl, rfl⟩, ?_, ?_, rfl⟩
  · intro p text st fs h
    simp only [parse, h]
  · intro p text v t h
    constructor
    · intro hc
      simp only [parse, h]
      rw [if_pos hc]
    · intro hc
      simp only [parse, h]
      rw [if_neg hc]

/-- Witness for C2: the failure clause applied to the literal parser for "a"
on the input "b". -/
theorem c2_witness : parse (string "a") "b" = .error ⟨[⟨0, "expected a"⟩]⟩ :=
  c2_parse_end_of_input.2.1 (string "a") "b" (TextState.start "b")
    [⟨0, "expected a"⟩] rfl

/-- C9: `optional()` with no default succeeds with None and consumes no input
whenever the wrapped parser fails, passes the parser's value and consumption
through whenever it succeeds, and `optional(default)` yields the given default
instead of None on the no-match branch. -/
theorem c9_optional :
    (∀ (p : Parser) (s : TextState) (v : Val) (t : TextState) (d : Val),
      parse_result p s = .success v t →
      parse_result (optional p d) s = .success v t) ∧
    (∀ (p : Parser) (s : TextState), (parse_result p s).isSuccess = false →
      parse_result (optional p) s = .success .vnone s ∧
      ∀ d, parse_result (optional p d) s = .success d s) := by
  constructor
  · intro p s v t d h
    have e : parse_result (optional p d) s =
        runChoice (orChildren p ++ [.successP d]) [] s := rfl
    rw [e]
    exact runChoice_orChildren_success p _ [] s v t h
  · intro p s h
    have key : ∀ d : Val, parse_result (optional p d) s = .success d s := by
      intro d
      have e : parse_result (optional p d) s =
          runChoice (orChildren p ++ [.successP d]) [] s := rfl
      rw [e, runChoice_orChildren_fail p _ [] s h]
      rfl
    exact ⟨key .vnone, key⟩

/-- Witness for C9: `string("a").optional()` on empty input succeeds with None
at the unmoved starting state, and with default "b" yields "b". -/
theorem c9_witness :
    parse_result (optional (string "a")) (TextState.start "") =
      .success .vnone (TextState.start "") ∧
    parse_result (optional (string "a") (.vstr "b")) (TextState.start "") =
      .success (.vstr "b") (TextState.start "") := by
  have h := c9_optional.2 (string "a") (TextState.start "") rfl
  exact ⟨h.1, h.2 (.vstr "b")⟩

/-- C10: inside a stateful parser body, `expect()` on a Failure result aborts
the remainder of the body immediately (the continuation is never consulted),
and the stateful parser surfaces that failure as an ordinary recoverable parse
failure, so an enclosing Choice tries its next alternative:
`(xy | string("z")).parse("z")` succeeds with "z" for every remainder of xy's
body. -/
theorem c10_stateful_expect :
    (∀ (st : TextState) (fs : List FailureInfo)
      (k : Val × TextState → Except ResultV ResultV),
      (ResultV.failure st fs).expect.bind k = .error (.failure st fs)) ∧
    (∀ k, parse (pOr (statefulParser (xyBody k)) (string "z")) "z" =
      .ok (.vstr "z")) :=
  ⟨fun _ _ _ => rfl, fun _ => rfl⟩

/-- C1: when all alternatives of a Choice fail, the surfaced failure set is
exactly the failures whose index equals the maximum index reached among the
tried alternatives, in discovery order, deduplicated by `(index, message)`;
in particular `(string("a") | string("b") | string("c")).parse("d")` raises a
ParseError whose failures are the three literal-mismatch entries at index 0 in
left-to-right order. -/
theorem c1_choice_farthest_failure :
    (∀ (g : Bool) (ps : List Parser) (s : TextState),
      (∀ p ∈ ps, (parse_result p s).isSuccess = false) →
      parse_result (.choiceP g ps) s =
        .failure (s.atIdx (maxIndex (allFailures ps s)))
          (aggregate (allFailures ps s)) ∧
      (∀ f, f ∈ aggregate (allFailures ps s) ↔
        f ∈ allFailures ps s ∧ f.index = maxIndex (allFailures ps s)) ∧
      (aggregate (allFailures ps s)).Nodup) ∧
    parse (pOr (pOr (string "a") (string "b")) (string "c")) "d" =
      .error ⟨[⟨0, "expected a"⟩, ⟨0, "expected b"⟩, ⟨0, "expected c"⟩]⟩ :=
  ⟨fun g ps s h =>
    ⟨choiceP_all_fail g ps s h, fun _ => mem_aggregate, nodup_dedupFailures _ _⟩,
   rfl⟩

/-- Witness for C1: the general clause applied to two failing literal
alternatives on the input "d". -/
theorem c1_witness :
    parse_result (.choiceP false [string "a", string "b"]) (TextState.start "d") =
      .failure ((TextState.start "d").atIdx
          (maxIndex (allFailures [string "a", string "b"] (TextState.start "d"))))
        (aggregate (allFailures [string "a", string "b"] (TextState.start "d"))) := by
  have hh : ∀ p ∈ [string "a", string "b"],
      (parse_result p (TextState.start "d")).isSuccess = false := by
    intro p hp
    rcases List.mem_cons.mp hp with rfl | hp
    · rfl
    · rcases List.mem_singleton.mp hp with rfl
      rfl
  exact (c1_choice_farthest_failure.1 false _ _ hh).1

/-- C3: `one_of` runs every alternative independently from the same starting
state and succeeds exactly when exactly one of them succeeds, yielding that
parser's value; zero successes fail with the aggregated candidate failures
under the farthest-failure rule, two or more successes fail with a message
naming how many alternatives matched, and construction with fewer than one
parser is rejected at construction time. -/
theorem c3_one_of :
    one_of [] = .error "one_of requires at least one parser" ∧
    (∀ (p : Parser) (ps : List Parser), one_of (p :: ps) = .ok (.oneOfP (p :: ps))) ∧
    (∀ (ps : List Parser) (s : TextState),
      runAll ps s = ps.map (fun p => parse_result p s)) ∧
    (∀ (ps : List Parser) (s : TextState) (r : ResultV),
      successResults ps s = [r] → parse_result (.oneOfP ps) s = r) ∧
    (∀ (ps : List Parser) (s : TextState),
      successResults ps s = [] →
      parse_result (.oneOfP ps) s =
        .failure (s.atIdx (maxIndex (allFailures ps s)))
          (aggregate (allFailures ps s))) ∧
    (∀ (ps : List Parser) (s : TextState),
      2 ≤ (successResults ps s).length →
      parse_result (.oneOfP ps) s =
        .failure s [⟨s.index,
          "Exactly one parser must succeed, got " ++
            toString (successResults ps s).length⟩]) ∧
    (∀ (ps : List Parser) (s : TextState),
      (∃ v t, parse_result (.oneOfP ps) s = .success v t) ↔
        (successResults ps s).length = 1) := by
  refine ⟨rfl, fun p ps => rfl, runAll_eq_map, ?_, ?_, ?_, ?_⟩
  · intro ps s r h
    simp only [parse_result]
    rw [successResults] at h
    rw [h]
  · intro ps s h
    simp only [parse_result]
    rw [successResults] at h
    rw [h]
    rfl
  · intro ps s h2
    rcases hfil : successResults ps s with _ | ⟨r1, rs⟩
    · rw [hfil] at h2
      exact absurd h2 (by simp)
    · rcases rs with _ | ⟨r2, rs2⟩
      · rw [hfil] at h2
        exact absurd h2 (by simp)
      · simp only [parse_result]
        rw [successResults] at hfil
        rw [hfil]
  · intro ps s
    rcases hfil : successResults ps s with _ | ⟨r1, rs⟩
    · constructor
      · rintro ⟨v, t, hvt⟩
        simp only [parse_result] at hvt
        rw [successResults] at hfil
        rw [hfil] at hvt
        cases hvt
      · intro hlen
        exact absurd hlen (by simp)
    · rcases rs with _ | ⟨r2, rs2⟩
      · constructor
        · intro _
          rfl
        · intro _
          have hr1 : r1 ∈ successResults ps s := by
            rw [hfil]; exact List.mem_cons_self _ _
          rw [successResults] at hr1
          have hsucc := (List.mem_filter.mp hr1).2
          rcases r1 with ⟨v, t⟩ | ⟨t, fs⟩
          · refine ⟨v, t, ?_⟩
            simp only [parse_result]
            rw [successResults] at hfil
            rw [hfil]
          · exact absurd hsucc (by simp [ResultV.isSuccess])
      · constructor
        · rintro ⟨v, t, hvt⟩
          simp only [parse_result] at hvt
          rw [successResults] at hfil
          rw [hfil] at hvt
          cases hvt
        · intro hlen
          exact absurd hlen (by simp)

/-- Witness for C3: the exactly-one clause applied on input "a" where only the
first of two literal alternatives matches. -/
theorem c3_witness :
    parse_result (.oneOfP [string "a", string "b"]) (TextState.start "a") =
      .success (.vstr "a") ((TextState.start "a").atIdx 1) :=
  c3_one_of.2.2.2.1 [string "a", string "b"] (TextState.start "a")
    (.success (.vstr "a") ((TextState.start "a").atIdx 1)) rfl

/-- C8 (amended): for every parser whose embedded stateful bodies never move a
success state's index backward — in particular every parser built from the
pure combinators, and every repetition over such a parser — a successful
`parse_result` yields a state with index greater than or equal to the starting
index; and `look_ahead(p)` on success returns exactly the pre-attempt state. -/
theorem c8_success_monotonic :
    (∀ (p : Parser), StatefulMono p →
      ∀ (s : TextState) (v : Val) (t : TextState),
        parse_result p s = .success v t → s.index ≤ t.index) ∧
    (∀ (p : Parser) (mn : Nat) (mx : Option Nat),
      (∀ s v t, parse_result p s = .success v t → s.index ≤ t.index) →
      StatefulMono (many p mn mx)) ∧
    (∀ (p : Parser) (s : TextState) (v : Val) (t : TextState),
      parse_result (look_ahead p) s = .success v t → t = s) := by
  refine ⟨fun p h => mono_of_statefulMono h, statefulMono_many, ?_⟩
  intro p s v t h
  simp only [look_ahead, parse_result] at h
  rcases hr : parse_result p s with ⟨v1, t1⟩ | ⟨t1, fs⟩
  · simp only [hr] at h
    injection h with h1 h2
    exact h2.symm
  · simp only [hr] at h
    cases h

/-- Counterexample for C8 as stated: the stateful escape hatch may rewind, so
monotonic progress does not hold for every parser — a stateful parser that
returns its state moved back to index 0 regresses from index 1. -/
theorem c8_counterexample :
    ¬ (∀ (p : Parser) (s : TextState) (v : Val) (t : TextState),
        parse_result p s = .success v t → s.index ≤ t.index) := by
  intro h
  have h2 := h (.statefulP (fun s => .success .vnone (s.atIdx 0)))
    ⟨"ab".data, 1⟩ .vnone ⟨"ab".data, 0⟩ rfl
  simp [TextState.index] at h2

/-- Witness for C8: the monotonicity clause applied to the literal parser for
"ab" at the start of "ab". -/
theorem c8_witness :
    (TextState.start "ab").index ≤ (TextState.mk "ab".data 2).index :=
  c8_success_monotonic.1 (string "ab") (StatefulMono.stringP "ab")
    (TextState.start "ab") (.vstr "ab") ⟨"ab".data, 2⟩ rfl

/-- C4: `many(min, max)` succeeds at a state exactly when at least `min`
consecutive applications of the element parser succeed (for forward-progress
elements and `min ≤ max`); it stops at `max` repetitions without consuming a
failing attempt; a failing attempt before `min` propagates as the overall
failure; once `min` is reached a failing attempt merely stops repetition at
the last success state.  In particular `letter.many(2,4)` parses "xy" to
["x","y"], fails on "x", and fails on "xyzwv". -/
theorem c4_many_bounds :
    (∀ (p : Parser) (mn m : Nat), StrictProgress p → mn ≤ m →
      ∀ s : TextState,
        ((parse_result (many p mn (some m)) s).isSuccess = true ↔
          mn ≤ consecutiveSuccesses p s)) ∧
    (∀ (p : Parser) (mn m fuel : Nat) (acc : List Val) (s : TextState),
      acc.length = m →
      runMany p mn (some m) (fuel + 1) acc s = .success (.vlist acc.reverse) s) ∧
    (∀ (p : Parser) (mn : Nat) (mx : Option Nat) (fuel : Nat) (acc : List Val)
      (s t : TextState) (fs : List FailureInfo),
      mx ≠ some acc.length → parse_result p s = .failure t fs → acc.length < mn →
      runMany p mn mx (fuel + 1) acc s = .failure t fs) ∧
    (∀ (p : Parser) (mn : Nat) (mx : Option Nat) (fuel : Nat) (acc : List Val)
      (s t : TextState) (fs : List FailureInfo),
      mx ≠ some acc.length → parse_result p s = .failure t fs → mn ≤ acc.length →
      runMany p mn mx (fuel + 1) acc s = .success (.vlist acc.reverse) s) ∧
    parse (many letter 2 (some 4)) "xy" = .ok (.vlist [.vstr "x", .vstr "y"]) ∧
    parse (many letter 2 (some 4)) "x" = .error ⟨[⟨1, "any character"⟩]⟩ ∧
    parse (many letter 2 (some 4)) "xyzwv" =
      .error ⟨[⟨4, "expected end of input"⟩]⟩ := by
  refine ⟨?_, ?_, ?_, ?_, rfl, rfl, rfl⟩
  · intro p mn m hp hb s
    have e : parse_result (many p mn (some m)) s =
        runMany p mn (some m) (s.chars.length - s.index + 1) [] s := rfl
    rw [e]
    have h := runMany_success_iff p hp mn m hb (s.chars.length - s.index + 1) [] s
      (Nat.le_refl _)
    rw [h]
    simp only [List.length_nil, consecutiveSuccesses]
    omega
  · intro p mn m fuel acc s h
    simp only [runMany]
    rw [if_pos (by rw [h])]
  · intro p mn mx fuel acc s t fs hmx hf hlt
    simp only [runMany]
    rw [if_neg (fun hc => hmx hc)]
    simp only [hf]
    rw [if_neg (by omega)]
  · intro p mn mx fuel acc s t fs hmx hf hge
    simp only [runMany]
    rw [if_neg (fun hc => hmx hc)]
    simp only [hf]
    rw [if_pos hge]

/-- Witness for C4: the characterization applied to `letter.many(2,4)` at the
start of "xy", where two consecutive letters succeed. -/
theorem c4_witness :
    (parse_result (many letter 2 (some 4)) (TextState.start "xy")).isSuccess = true :=
  (c4_many_bounds.1 letter 2 4 strictProgress_letter (by omega)
    (TextState.start "xy")).mpr (by decide)

section PermutationLemmas

theorem permRound_all_fail :
    ∀ (fields : List (String × Parser)) (s : TextState),
      (∀ f ∈ fields, (parse_result f.2 s).isSuccess = false) →
      permRound fields s = .error (allFailures (fields.map Prod.snd) s) := by
  intro fields
  induction fields with
  | nil => intro s _; rfl
  | cons f rest ih =>
    intro s h
    obtain ⟨n, p⟩ := f
    have hp := h (n, p) (List.mem_cons_self _ _)
    rcases hq : parse_result p s with ⟨v, t⟩ | ⟨t, fs⟩
    · rw [hq] at hp
      exact absurd hp (by simp [ResultV.isSuccess])
    · simp only [permRound, hq]
      simp only [ih s (fun g hg => h g (List.mem_cons_of_mem _ hg))]
      simp only [List.map_cons, allFailures_cons, hq, ResultV.failuresOf]

theorem permLoop_empty (fuel : Nat) (acc : List (String × Val)) (s : TextState) :
    permLoop fuel [] acc s = .ok (acc, s) := by
  cases fuel <;> rfl

end PermutationLemmas

section FlatteningLemmas

theorem keepChildren_cases (a : Parser) :
    (∃ l k r, a = .keepOneP false l k r ∧ keepChildren a = l ++ [k] ++ r) ∨
      keepChildren a = [a] := by
  cases a with
  | keepOneP g l k r =>
    cases g with
    | false => exact Or.inl ⟨l, k, r, rfl, rfl⟩
    | true => exact Or.inr rfl
  | _ => exact Or.inr rfl

theorem pRshift_cases (a b : Parser) :
    (∃ l k r, b = .keepOneP false l k r ∧
      pRshift a b = .keepOneP false (keepChildren a ++ l) k r) ∨
    pRshift a b = .keepOneP false (keepChildren a) b [] := by
  cases b with
  | keepOneP g l k r =>
    cases g with
    | false => exact Or.inl ⟨l, k, r, rfl, rfl⟩
    | true => exact Or.inr rfl
  | _ => exact Or.inr rfl

theorem pLshift_cases (a b : Parser) :
    (∃ l k r, a = .keepOneP false l k r ∧
      pLshift a b = .keepOneP false l k (r ++ keepChildren b)) ∨
    pLshift a b = .keepOneP false [] a (keepChildren b) := by
  cases a with
  | keepOneP g l k r =>
    cases g with
    | false => exact Or.inl ⟨l, k, r, rfl, rfl⟩
    | true => exact Or.inr rfl
  | _ => exact Or.inr rfl

theorem runSequence_keepChildren_failure (a : Parser) (acc : List Val)
    (s t : TextState) (fs : List FailureInfo)
    (h : parse_result a s = .failure t fs) :
    runSequence (keepChildren a) acc s = .failure t fs := by
  rcases keepChildren_cases a with ⟨l, k, r, rfl, hkc⟩ | hkc
  · rw [hkc]
    simp only [parse_result] at h
    rcases h1 : runSequence l [] s with ⟨v1, t1⟩ | ⟨t1, fs1⟩
    · simp only [h1] at h
      rcases h2 : parse_result k t1 with ⟨v2, t2⟩ | ⟨t2, fs2⟩
      · simp only [h2] at h
        rcases h3 : runSequence r [] t2 with ⟨v3, t3⟩ | ⟨t3, fs3⟩
        · simp only [h3] at h; cases h
        · simp only [h3] at h
          rw [List.append_assoc, runSequence_append, runSequence_accShift l acc s]
          simp only [h1, List.singleton_append, List.append_eq, List.nil_append, runSequence, h2]
          rw [runSequence_accShift r _ t2]
          simp only [h3]
          exact h
      · simp only [h2] at h
        rw [List.append_assoc, runSequence_append, runSequence_accShift l acc s]
        simp only [h1, List.singleton_append, List.append_eq, List.nil_append, runSequence, h2]
        exact h
    · simp only [h1] at h
      rw [List.append_assoc, runSequence_append, runSequence_accShift l acc s]
      simp only [h1]
      exact h
  · rw [hkc]
    simp only [runSequence, h]

theorem runSequence_keepChildren_success (a : Parser) (acc : List Val)
    (s : TextState) (v : Val) (t : TextState)
    (h : parse_result a s = .success v t) :
    ∃ w, runSequence (keepChildren a) acc s = .success w t := by
  rcases keepChildren_cases a with ⟨l, k, r, rfl, hkc⟩ | hkc
  · rw [hkc]
    simp only [parse_result] at h
    rcases h1 : runSequence l [] s with ⟨v1, t1⟩ | ⟨t1, fs1⟩
    · simp only [h1] at h
      rcases h2 : parse_result k t1 with ⟨v2, t2⟩ | ⟨t2, fs2⟩
      · simp only [h2] at h
        rcases h3 : runSequence r [] t2 with ⟨v3, t3⟩ | ⟨t3, fs3⟩
        · simp only [h3] at h
          injection h with e1 e2
          have step : runSequence ((l ++ [k]) ++ r) acc s =
              runSequence r
                (v2 :: (tupList (Val.vtup (acc.reverse ++ tupList v1))).reverse) t2 := by
            rw [List.append_assoc, runSequence_append, runSequence_accShift l acc s]
            simp only [h1, List.singleton_append, List.append_eq, List.nil_append,
              runSequence, h2]
          have step2 := runSequence_accShift r
            (v2 :: (tupList (Val.vtup (acc.reverse ++ tupList v1))).reverse) t2
          simp only [h3] at step2
          exact ⟨_, by rw [step, step2, e2]⟩
        · simp only [h3] at h; cases h
      · simp only [h2] at h; cases h
    · simp only [h1] at h; cases h
  · rw [hkc]
    simp only [runSequence, h]
    exact ⟨_, rfl⟩

theorem pRshift_sem (a b : Parser) (s : TextState) :
    parse_result (pRshift a b) s =
      match parse_result a s with
      | .failure t fs => .failure t fs
      | .success _ t => parse_result b t := by
  rcases pRshift_cases a b with ⟨l, k, r, rfl, hfl⟩ | hfl
  · rw [hfl]
    rcases ha : parse_result a s with ⟨v, t⟩ | ⟨t, fs⟩
    · obtain ⟨w, hw⟩ := runSequence_keepChildren_success a [] s v t ha
      simp only [ha, parse_result]
      rw [runSequence_append]
      simp only [hw]
      rw [runSequence_accShift l _ t]
      rcases h2 : runSequence l [] t with ⟨v2, t2⟩ | ⟨t2, fs2⟩
      · simp only [h2]
      · simp only [h2]
    · have hw := runSequence_keepChildren_failure a [] s t fs ha
      simp only [ha, parse_result]
      rw [runSequence_append]
      simp only [hw]
  · rw [hfl]
    rcases ha : parse_result a s with ⟨v, t⟩ | ⟨t, fs⟩
    · obtain ⟨w, hw⟩ := runSequence_keepChildren_success a [] s v t ha
      simp only [ha, parse_result, hw]
      rcases hb : parse_result b t with ⟨v2, u⟩ | ⟨u, fs2⟩
      · simp only [hb, runSequence]
      · simp only [hb]
    · have hw := runSequence_keepChildren_failure a [] s t fs ha
      simp only [ha, parse_result, hw]

theorem pLshift_sem (a b : Parser) (s : TextState) :
    parse_result (pLshift a b) s =
      match parse_result a s with
      | .failure t fs => .failure t fs
      | .success v t =>
        match parse_result b t with
        | .failure u fs => .failure u fs
        | .success _ u => .success v u := by
  rcases pLshift_cases a b with ⟨l, k, r, rfl, hfl⟩ | hfl
  · rw [hfl]
    simp only [parse_result]
    rcases h1 : runSequence l [] s with ⟨v1, t1⟩ | ⟨t1, fs1⟩
    · simp only [h1]
      rcases h2 : parse_result k t1 with ⟨v2, t2⟩ | ⟨t2, fs2⟩
      · simp only [h2]
        rw [runSequence_append]
        rcases h3 : runSequence r [] t2 with ⟨v3, t3⟩ | ⟨t3, fs3⟩
        · simp only [h3]
          rcases hb : parse_result b t3 with ⟨v4, u⟩ | ⟨u, fs4⟩
          · obtain ⟨w, hw⟩ :=
              runSequence_keepChildren_success b (tupList v3).reverse t3 v4 u hb
            simp only [hb, hw]
          · have hw :=
              runSequence_keepChildren_failure b (tupList v3).reverse t3 u fs4 hb
            simp only [hb, hw]
        · simp only [h3]
      · simp only [h2]
    · simp only [h1]
  · rw [hfl]
    simp only [parse_result, runSequence]
    rcases ha : parse_result a s with ⟨v, t⟩ | ⟨t, fs⟩
    · simp only [ha]
      rcases hb : parse_result b t with ⟨v2, u⟩ | ⟨u, fs2⟩
      · obtain ⟨w, hw⟩ := runSequence_keepChildren_success b [] t v2 u hb
        simp only [hb, hw]
      · have hw := runSequence_keepChildren_failure b [] t u fs2 hb
        simp only [hb, hw]
    · simp only [ha]

theorem pAnd_sem (xs ys : List Parser) (s : TextState) :
    parse_result (pAnd (.sequenceP false xs) (.sequenceP false ys)) s =
      parse_result (.mapP tupleConcat
        (.sequenceP false [.sequenceP false xs, .sequenceP false ys])) s := by
  have e1 : parse_result (pAnd (.sequenceP false xs) (.sequenceP false ys)) s =
      runSequence (xs ++ ys) [] s := rfl
  rw [e1, runSequence_append]
  simp only [parse_result, runSequence]
  rcases h1 : runSequence xs [] s with ⟨v1, t1⟩ | ⟨t1, fs1⟩
  · obtain ⟨l1, rfl⟩ := runSequence_shape _ _ _ _ _ h1
    simp only [h1]
    rw [runSequence_accShift ys _ t1]
    rcases h2 : runSequence ys [] t1 with ⟨v2, t2⟩ | ⟨t2, fs2⟩
    · obtain ⟨l2, rfl⟩ := runSequence_shape _ _ _ _ _ h2
      simp only [h2, runSequence, tupList, tupleConcat, List.reverse_reverse,
        List.reverse_cons, List.reverse_nil, List.nil_append, List.append_nil,
        List.singleton_append, List.cons_append]
    · simp only [h2]
  · simp only [h1]

theorem pOr_sem (xs ys : List Parser) (s : TextState) :
    parse_result (pOr (.choiceP false xs) (.choiceP false ys)) s =
      parse_result (.choiceP false [.choiceP false xs, .choiceP false ys]) s := by
  have e1 : parse_result (pOr (.choiceP false xs) (.choiceP false ys)) s =
      runChoice (xs ++ ys) [] s := rfl
  have e2 : parse_result (.choiceP false [.choiceP false xs, .choiceP false ys]) s =
      runChoice [.choiceP false xs, .choiceP false ys] [] s := rfl
  rw [e1, e2]
  rcases h1 : runChoice xs [] s with ⟨v1, t1⟩ | ⟨t1, fs1⟩
  · rw [runChoice_success_stable xs [] [] s v1 t1 ys h1]
    have hr : runChoice [Parser.choiceP false xs, Parser.choiceP false ys] [] s =
        .success v1 t1 := by
      simp only [runChoice, parse_result, h1]
    rw [hr]
  · have hall : ∀ p ∈ xs, (parse_result p s).isSuccess = false :=
      runChoice_fail_forall xs [] s (by rw [h1]; rfl)
    rw [runChoice_all_fail xs ys [] s hall, List.nil_append]
    rcases h2 : runChoice ys [] s with ⟨v2, t2⟩ | ⟨t2, fs2⟩
    · have hstable := runChoice_success_stable ys [] (allFailures xs s) s v2 t2 [] h2
      rw [List.append_nil] at hstable
      rw [hstable]
      have hr : runChoice [Parser.choiceP false xs, Parser.choiceP false ys] [] s =
          .success v2 t2 := by
        simp only [runChoice, parse_result, h1, h2]
      rw [hr]
    · have hall2 : ∀ p ∈ ys, (parse_result p s).isSuccess = false :=
        runChoice_fail_forall ys [] s (by rw [h2]; rfl)
      have hLHS := runChoice_all_fail ys [] (allFailures xs s) s hall2
      rw [List.append_nil] at hLHS
      rw [hLHS]
      have hxs2 : runChoice xs [] s =
          .failure (s.atIdx (maxIndex (allFailures xs s)))
            (aggregate (allFailures xs s)) := choiceP_all_fail false xs s hall
      have hys2 : runChoice ys [] s =
          .failure (s.atIdx (maxIndex (allFailures ys s)))
            (aggregate (allFailures ys s)) := choiceP_all_fail false ys s hall2
      have hr : runChoice [Parser.choiceP false xs, Parser.choiceP false ys] [] s =
          .failure (s.atIdx (maxIndex
              (aggregate (allFailures xs s) ++ aggregate (allFailures ys s))))
            (aggregate
              (aggregate (allFailures xs s) ++ aggregate (allFailures ys s))) := by
        simp only [runChoice, parse_result, hxs2, hys2, List.nil_append]
      rw [hr, aggregate_append_aggregate]
      simp only [runChoice]
      rw [maxIndex_append (aggregate (allFailures xs s)) (aggregate (allFailures ys s)),
        maxIndex_aggregate, maxIndex_aggregate, ← maxIndex_append]

end FlatteningLemmas

/-- C5: permutation gathering over the three-field record whose field parsers
match the distinct literals a, b and c accepts the fields in any of the six
input orderings and always constructs the same record value (fields assembled
in declaration order); the algorithm tries each remaining field's parser in
declaration order, the first success removes its field and restarts the round,
a round in which no remaining field parser succeeds fails overall with the
round's aggregated farthest failures, and an empty working set succeeds. -/
theorem c5_gather_perm :
    (parse (gather_perm permFields) "abc" =
        .ok (.vtup [.vstr "a", .vstr "b", .vstr "c"]) ∧
      parse (gather_perm permFields) "acb" =
        .ok (.vtup [.vstr "a", .vstr "b", .vstr "c"]) ∧
      parse (gather_perm permFields) "bac" =
        .ok (.vtup [.vstr "a", .vstr "b", .vstr "c"]) ∧
      parse (gather_perm permFields) "bca" =
        .ok (.vtup [.vstr "a", .vstr "b", .vstr "c"]) ∧
      parse (gather_perm permFields) "cab" =
        .ok (.vtup [.vstr "a", .vstr "b", .vstr "c"]) ∧
      parse (gather_perm permFields) "cba" =
        .ok (.vtup [.vstr "a", .vstr "b", .vstr "c"])) ∧
    (∀ (n : String) (p : Parser) (rest : List (String × Parser)) (s : TextState)
      (v : Val) (t : TextState),
      parse_result p s = .success v t →
      permRound ((n, p) :: rest) s = .ok (n, v, t, rest)) ∧
    (∀ (fields : List (String × Parser)) (s : TextState),
      (∀ f ∈ fields, (parse_result f.2 s).isSuccess = false) →
      permRound fields s = .error (allFailures (fields.map Prod.snd) s)) ∧
    (∀ (fuel : Nat) (fields : List (String × Parser)) (acc : List (String × Val))
      (s : TextState),
      fields ≠ [] →
      (∀ f ∈ fields, (parse_result f.2 s).isSuccess = false) →
      permLoop (fuel + 1) fields acc s =
        .error (s.atIdx (maxIndex (allFailures (fields.map Prod.snd) s)),
          aggregate (allFailures (fields.map Prod.snd) s))) ∧
    (∀ (fuel : Nat) (acc : List (String × Val)) (s : TextState),
      permLoop fuel [] acc s = .ok (acc, s)) := by
  refine ⟨⟨rfl, rfl, rfl, rfl, rfl, rfl⟩, ?_, permRound_all_fail, ?_, permLoop_empty⟩
  · intro n p rest s v t h
    simp only [permRound, h]
  · intro fuel fields acc s hne h
    obtain ⟨f, rest, rfl⟩ : ∃ g r, fields = g :: r := by
      cases fields with
      | nil => exact absurd rfl hne
      | cons g r => exact ⟨g, r, rfl⟩
    simp only [permLoop]
    simp only [permRound_all_fail _ _ h]

/-- Witness for C5: a head field whose parser succeeds is removed from the
working set by the round. -/
theorem c5_witness :
    permRound permFields (TextState.start "abc") =
      .ok ("a", .vstr "a", (TextState.start "abc").atIdx 1,
        [("b", string "b"), ("c", string "c")]) :=
  c5_gather_perm.2.1 "a" (string "a") [("b", string "b"), ("c", string "c")]
    (TextState.start "abc") (.vstr "a") ((TextState.start "abc").atIdx 1) rfl

/-- C6: composing two Sequence (or Choice, or keep-one) composites
associatively produces a single flat node whose children are the
concatenation of the operands' children, except that a named/grouped operand
is kept whole as one child; and the flattened form is observationally
equivalent to the nested form — the same success/failure outcome and value on
every input (for sequences the nested form is the tuple-concatenating map
over the two sub-sequences, for choices the nested choice of the two
sub-choices, for keep-one chains the plain discard/keep reference). -/
theorem c6_flattening :
    (∀ xs ys : List Parser,
      pAnd (.sequenceP false xs) (.sequenceP false ys) = .sequenceP false (xs ++ ys)) ∧
    (∀ (xs ys : List Parser) (n : String),
      pAnd (set_name (.sequenceP false xs) n) (.sequenceP false ys) =
        .sequenceP false (set_name (.sequenceP false xs) n :: ys)) ∧
    (∀ xs ys : List Parser,
      pOr (.choiceP false xs) (.choiceP false ys) = .choiceP false (xs ++ ys)) ∧
    (∀ (xs ys : List Parser) (n : String),
      pOr (set_name (.choiceP false xs) n) (.choiceP false ys) =
        .choiceP false (set_name (.choiceP false xs) n :: ys)) ∧
    (pLshift (pLshift (pRshift (pRshift (string "a") (string "b")) (string "c"))
        (string "d")) (string "e") =
      .keepOneP false [string "a", string "b"] (string "c")
        [string "d", string "e"]) ∧
    (∀ (xs ys : List Parser) (s : TextState),
      parse_result (pAnd (.sequenceP false xs) (.sequenceP false ys)) s =
        parse_result (.mapP tupleConcat
          (.sequenceP false [.sequenceP false xs, .sequenceP false ys])) s) ∧
    (∀ (xs ys : List Parser) (s : TextState),
      parse_result (pOr (.choiceP false xs) (.choiceP false ys)) s =
        parse_result (.choiceP false [.choiceP false xs, .choiceP false ys]) s) ∧
    (∀ (a b : Parser) (s : TextState),
      parse_result (pRshift a b) s =
        match parse_result a s with
        | .failure t fs => .failure t fs
        | .success _ t => parse_result b t) ∧
    (∀ (a b : Parser) (s : TextState),
      parse_result (pLshift a b) s =
        match parse_result a s with
        | .failure t fs => .failure t fs
        | .success v t =>
          match parse_result b t with
          | .failure u fs => .failure u fs
          | .success _ u => .success v u) :=
  ⟨fun _ _ => rfl, fun _ _ _ => rfl, fun _ _ => rfl, fun _ _ _ => rfl, rfl,
    pAnd_sem, pOr_sem, pRshift_sem, pLshift_sem⟩

section WrapLemmas

theorem wrapAux_nil (width : Nat) : ∀ fuel : Nat, wrapAux width fuel [] = [] := by
  intro fuel
  cases fuel <;> rfl

theorem wrapAux_ne_nil (width fuel : Nat) (cs : List Char) (h : cs ≠ []) :
    wrapAux width fuel cs ≠ [] := by
  cases cs with
  | nil => exact absurd rfl h
  | cons c cs2 =>
    cases fuel with
    | zero => simp [wrapAux]
    | succ fuel => simp [wrapAux]

theorem wrapAux_flatten (width : Nat) (hw : 0 < width) :
    ∀ (fuel : Nat) (cs : List Char), cs.length ≤ fuel →
      (wrapAux width fuel cs).flatten = cs := by
  intro fuel
  induction fuel with
  | zero =>
    intro cs h
    have hn : cs = [] := List.length_eq_zero.mp (Nat.le_zero.mp h)
    subst hn
    rfl
  | succ fuel ih =>
    intro cs h
    cases cs with
    | nil => rfl
    | cons c cs2 =>
      simp only [wrapAux, List.flatten_cons]
      rw [ih ((c :: cs2).drop width) (by simp only [List.length_drop]; omega)]
      exact List.take_append_drop width (c :: cs2)

theorem wrapAux_length_le (width : Nat) (hw : 0 < width) :
    ∀ (fuel : Nat) (cs : List Char), cs.length ≤ fuel →
      ∀ c ∈ wrapAux width fuel cs, c.length ≤ width := by
  intro fuel
  induction fuel with
  | zero =>
    intro cs h c hc
    have hn : cs = [] := List.length_eq_zero.mp (Nat.le_zero.mp h)
    subst hn
    cases hc
  | succ fuel ih =>
    intro cs h c hc
    cases cs with
    | nil => cases hc
    | cons x cs2 =>
      simp only [wrapAux] at hc
      rcases List.mem_cons.mp hc with rfl | hc
      · simp only [List.length_take]
        omega
      · exact ih ((x :: cs2).drop width)
          (by simp only [List.length_drop]; omega) c hc

theorem wrapAux_dropLast_length (width : Nat) (hw : 0 < width) :
    ∀ (fuel : Nat) (cs : List Char), cs.length ≤ fuel →
      ∀ c ∈ (wrapAux width fuel cs).dropLast, c.length = width := by
  intro fuel
  induction fuel with
  | zero =>
    intro cs h c hc
    have hn : cs = [] := List.length_eq_zero.mp (Nat.le_zero.mp h)
    subst hn
    cases hc
  | succ fuel ih =>
    intro cs h c hc
    cases cs with
    | nil => cases hc
    | cons x cs2 =>
      simp only [wrapAux] at hc
      by_cases hd : (x :: cs2).drop width = []
      · rw [hd, wrapAux_nil] at hc
        simp at hc
      · rw [List.dropLast_cons_of_ne_nil
          (wrapAux_ne_nil width fuel ((x :: cs2).drop width) hd)] at hc
        rcases List.mem_cons.mp hc with rfl | hc
        · have hlt : width < (x :: cs2).length := by
            have := List.length_pos.mpr hd
            simp only [List.length_drop] at this
            omega
          simp only [List.length_take]
          omega
        · exact ih ((x :: cs2).drop width)
            (by simp only [List.length_drop]; omega) c hc

end WrapLemmas

/-- C7: `context_window` splits the text into wrapped lines that are each
exactly `width` characters long, only the final partial chunk being shorter,
derived sequentially from the raw text and not split on natural newlines
(their concatenation is the original text, newlines staying inside chunks);
and every line returned in the selection is such a fixed-width chunk of the
original text, unchanged. -/
theorem c7_context_window (text : String) (index ctx width : Nat) (hw : 0 < width) :
    (∀ c ∈ (wrapLines text.data width).dropLast, c.length = width) ∧
    (∀ c ∈ wrapLines text.data width, c.length ≤ width) ∧
    ((wrapLines text.data width).flatten = text.data) ∧
    (∀ l ∈ (context_window text index ctx width).lines,
      l ∈ wrapLines text.data width) := by
  refine ⟨?_, ?_, ?_, ?_⟩
  · exact wrapAux_dropLast_length width hw text.data.length text.data (Nat.le_refl _)
  · exact wrapAux_length_le width hw text.data.length text.data (Nat.le_refl _)
  · exact wrapAux_flatten width hw text.data.length text.data (Nat.le_refl _)
  · intro l hl
    exact List.mem_of_mem_drop (List.mem_of_mem_take hl)

/-- Witness for C7: the chunking facts at the repository's own edge-case
example, index 3 in "abc" with no context lines. -/
theorem c7_witness :
    (wrapLines "abc".data 80).flatten = "abc".data ∧
    ∀ l ∈ (context_window "abc" 3 0 80).lines, l ∈ wrapLines "abc".data 80 := by
  have h := c7_context_window "abc" 3 0 80 (by decide)
  exact ⟨h.2.2.1, h.2.2.2⟩

end Parmancer
